import Mathlib

/-!
Verification of the cyclic colour-map legend visual (`CyclicColourVisual`)
and the colour-map conversion contract of the mathplot repository.

The C++ source is shallowly embedded: the mesh-building pass
`fillFrameWithColour` becomes explicit state passing over a vertex-buffer
state, the tick-label pass `drawTickLabels` becomes a pure function from
label/angle lists to placed entries, and floating-point arithmetic is
embedded as real arithmetic.  Machine integers (`int`, `unsigned int`
loop counters and buffer indices, all small and non-negative here)
are embedded as `Nat`.
-/

namespace Mathplot

/-! ## Integer-level index generation (from `fillFrameWithColour`, lines 148-157)

These definitions involve only natural numbers and are fully computable. -/

/-- The successor segment computed by the source as
`int jn = (numsegs + ((j+1) % numsegs)) % numsegs;`. -/
def segSucc (numsegs j : ℕ) : ℕ := (numsegs + ((j + 1) % numsegs)) % numsegs

/-- The block of `6 * numsegs` triangle indices pushed for one ring, with the
running vertex-count offset `idx` (source lines 148-156): for each segment `j`,
the two triangles `(idx+2j, idx+2jn, idx+2jn+1)` and
`(idx+2j, idx+2jn+1, idx+2j+1)`. -/
def ringIndexBlock (numsegs idx : ℕ) : List ℕ :=
  (List.range numsegs).flatMap (fun j =>
    let jn := segSucc numsegs j
    [idx + 2 * j, idx + 2 * jn, idx + (2 * jn + 1),
     idx + 2 * j, idx + (2 * jn + 1), idx + (2 * j + 1)])

/-- The sequence of ring indices visited by the loop
`for (int ring = numrings; ring > 0; ring--)`:
`[numrings, numrings - 1, ..., 1]`. -/
def ringList (numrings : ℕ) : List ℕ :=
  (List.range numrings).map (fun k => numrings - k)

/-! ## The `initializeVertices` call sequence (source lines 47-56) -/

/-- One step performed by `CyclicColourVisual::initializeVertices`. -/
inductive InitStep where
  | measureGlyph
  | drawFrame
  | drawTickLabels
  | fillFrameWithColour
deriving DecidableEq, Repr

/-- The sequence of steps performed by `initializeVertices` as written in the
source: the reference-glyph measurement is unconditional, then the frame is
drawn iff `draw_frame`, then tick labels iff `draw_ticks`, then the colour
fill always runs. -/
def initSteps (draw_frame draw_ticks : Bool) : List InitStep :=
  [InitStep.measureGlyph]
    ++ (if draw_frame then [InitStep.drawFrame] else [])
    ++ (if draw_ticks then [InitStep.drawTickLabels] else [])
    ++ [InitStep.fillFrameWithColour]

/-- The step sequence that the specification sentence describes: identical to
`initSteps` except that the glyph measurement is skipped when the client does
not need labels.  This definition follows the claim wording, for comparison
with `initSteps`, which follows the source. -/
def initStepsClaimed (needs_labels draw_frame draw_ticks : Bool) : List InitStep :=
  (if needs_labels then [InitStep.measureGlyph] else [])
    ++ (if draw_frame then [InitStep.drawFrame] else [])
    ++ (if draw_ticks then [InitStep.drawTickLabels] else [])
    ++ [InitStep.fillFrameWithColour]

/-! ## Colour-map conversion (modelled: `mplot/ColourMap.h` is not in the
source sample; only its callers and its test are) -/

/-- The documented midpoint colour of the reference Jet-style colour map,
the literal `{0.541f, 0.76f, 0.018f}` of `testColourMap.cpp`. -/
def midJet : ℚ × ℚ × ℚ := (541 / 1000, 76 / 100, 18 / 1000)

/-- Modelled from the spec: the colour curve of the reference Jet-style
family of `mplot::ColourMap` (the header `mplot/ColourMap.h` is not in the
source sample).  The spec documents only the family's midpoint literal: the
midpoint colour at normalized position `1/2` is `(0.541, 0.76, 0.018)`; the
curve elsewhere is left unmodelled (zero). -/
def jetCurve (u : ℚ) : ℚ × ℚ × ℚ := if u = 1 / 2 then midJet else (0, 0, 0)

/-- Modelled from the spec: `mplot::ColourMap<T>::convert` for a non-cyclic
map (the header `mplot/ColourMap.h` is not in the source sample).  The raw
value is normalized against the configured range as
`(value - range_min) / (range_max - range_min)` and the family's colour
curve is applied to the fraction. -/
def colourMapConvert (range_min range_max value : ℚ) : ℚ × ℚ × ℚ :=
  jetCurve ((value - range_min) / (range_max - range_min))

/-- The `{range_min, range_max, value}` configurations exercised by
`testColourMap.cpp` for each supported input numeric type (float, double,
unsigned char, char, int, unsigned int, short, unsigned short, and the two
unsigned long long cases), each configured so the normalized fraction of the
tested value is exactly one half. -/
def jetTestConfigs : List (ℚ × ℚ × ℚ) :=
  [(0, 1, 1 / 2), (0, 1, 1 / 2), (0, 254, 127), (0, 126, 63),
   (0, 20000, 10000), (0, 10000, 5000), (0, 1000, 500), (0, 1000, 500),
   (0, 256, 128), (0, 1000000, 500000)]

/-! ## Real-valued geometry of the visual -/

noncomputable section

open Real

/-- A 3-vector, embedding `sm::vec<float>` / `std::array<float, 3>`. -/
abbrev V3 : Type := ℝ × ℝ × ℝ

/-- The growing vertex buffers of `mplot::VisualModel`: the three parallel
sequences `vertexPositions`, `vertexNormals`, `vertexColors`, the index
buffer `indices`, and the running vertex-count offset `idx`. -/
structure VState where
  vertexPositions : List V3
  vertexNormals : List V3
  vertexColors : List V3
  indices : List ℕ
  idx : ℕ

/-- Append one vertex: a position, a normal and a colour pushed in lockstep
(the three consecutive `vertex_push` calls of the source). -/
def pushVertex (s : VState) (pos nrm col : V3) : VState :=
  { s with
    vertexPositions := s.vertexPositions ++ [pos]
    vertexNormals := s.vertexNormals ++ [nrm]
    vertexColors := s.vertexColors ++ [col] }

/-- The configuration fields of `CyclicColourVisual` read by
`fillFrameWithColour`. -/
structure FillParams where
  outer_radius : ℝ
  inner_radius : ℝ
  z : ℝ
  show_perception_sine : Bool
  numsegs : ℕ
  numrings : ℕ

/-- `float r_d = this->outer_radius - this->inner_radius;`. -/
def r_d (p : FillParams) : ℝ := p.outer_radius - p.inner_radius

/-- `float r_dr = r_d / this->numrings;`. -/
def r_dr (p : FillParams) : ℝ := r_d p / (p.numrings : ℝ)

/-- `float r_out = this->inner_radius + r_dr * static_cast<float>(ring);`. -/
def r_out (p : FillParams) (ring : ℕ) : ℝ := p.inner_radius + r_dr p * (ring : ℝ)

/-- `float r_in = this->inner_radius + r_dr * static_cast<float>(ring-1);`. -/
def r_in (p : FillParams) (ring : ℕ) : ℝ :=
  p.inner_radius + r_dr p * ((ring - 1 : ℕ) : ℝ)

/-- `float norm_r_out = (r_out - this->inner_radius) / r_d;`. -/
def norm_r_out (p : FillParams) (ring : ℕ) : ℝ :=
  (r_out p ring - p.inner_radius) / r_d p

/-- `float norm_r_in = (r_in - this->inner_radius) / r_d;`. -/
def norm_r_in (p : FillParams) (ring : ℕ) : ℝ :=
  (r_in p ring - p.inner_radius) / r_d p

/-- `float colour_angle = (static_cast<float>(j)/this->numsegs) * two_pi;`. -/
def colour_angle (numsegs j : ℕ) : ℝ := ((j : ℝ) / (numsegs : ℝ)) * (2 * π)

/-- The perceptual-test perturbation for the ring's outer radius
(`decaying_sine_out`, source lines 127-132): zero when the overlay is
disabled, otherwise `0.1 * norm_r_out^2 * sin (20 * pi * colour_angle)`. -/
def decaying_sine_out (p : FillParams) (ring j : ℕ) : ℝ :=
  if p.show_perception_sine then
    0.1 * norm_r_out p ring * norm_r_out p ring *
      Real.sin (20 * π * colour_angle p.numsegs j)
  else 0

/-- The perceptual-test perturbation for the ring's inner radius
(`decaying_sine_in`). -/
def decaying_sine_in (p : FillParams) (ring j : ℕ) : ℝ :=
  if p.show_perception_sine then
    0.1 * norm_r_in p ring * norm_r_in p ring *
      Real.sin (20 * π * colour_angle p.numsegs j)
  else 0

/-- The value passed to `cm.convert` for the outer vertex of segment `j`:
`colour_angle/two_pi + decaying_sine_out`. -/
def convertArgOut (p : FillParams) (ring j : ℕ) : ℝ :=
  colour_angle p.numsegs j / (2 * π) + decaying_sine_out p ring j

/-- The value passed to `cm.convert` for the inner vertex of segment `j`:
`colour_angle/two_pi + decaying_sine_in`. -/
def convertArgIn (p : FillParams) (ring j : ℕ) : ℝ :=
  colour_angle p.numsegs j / (2 * π) + decaying_sine_in p ring j

/-- `std::array<float, 3> col_out = this->cm.convert (...)`. -/
def col_out (cm : ℝ → V3) (p : FillParams) (ring j : ℕ) : V3 :=
  cm (convertArgOut p ring j)

/-- `std::array<float, 3> col_in = this->cm.convert (...)`. -/
def col_in (cm : ℝ → V3) (p : FillParams) (ring j : ℕ) : V3 :=
  cm (convertArgIn p ring j)

/-- `float t = j * two_pi / static_cast<float>(this->numsegs);`. -/
def seg_t (numsegs j : ℕ) : ℝ := (j : ℝ) * (2 * π) / (numsegs : ℝ)

/-- `centre + c_in` where
`c_in = uy * sin(t) * r_in + ux * cos(t) * r_in` and `centre = (0,0,z)`. -/
def posIn (p : FillParams) (ring j : ℕ) : V3 :=
  (Real.cos (seg_t p.numsegs j) * r_in p ring,
   Real.sin (seg_t p.numsegs j) * r_in p ring, p.z)

/-- `centre + c_out` where
`c_out = uy * sin(t) * r_out + ux * cos(t) * r_out`. -/
def posOut (p : FillParams) (ring j : ℕ) : V3 :=
  (Real.cos (seg_t p.numsegs j) * r_out p ring,
   Real.sin (seg_t p.numsegs j) * r_out p ring, p.z)

/-- The unit z vector `this->uz`, pushed as the normal of every fill vertex. -/
def uz : V3 := (0, 0, 1)

/-- The `2 * numsegs` vertices (position, normal, colour) pushed for one ring
(source lines 123-145): for each segment, the inner vertex then the outer
vertex. -/
def ringVertexBlock (cm : ℝ → V3) (p : FillParams) (ring : ℕ) :
    List (V3 × V3 × V3) :=
  (List.range p.numsegs).flatMap (fun j =>
    [(posIn p ring j, uz, col_in cm p ring j),
     (posOut p ring j, uz, col_out cm p ring j)])

/-- Append a list of vertices one by one with `pushVertex`. -/
def pushMany (s : VState) (vs : List (V3 × V3 × V3)) : VState :=
  vs.foldl (fun t v => pushVertex t v.1 v.2.1 v.2.2) s

/-- One iteration of the outer ring loop of `fillFrameWithColour`: push the
ring's `2 * numsegs` vertices, then push its `6 * numsegs` indices against
the running offset `idx`, then advance `idx` by `2 * numsegs`. -/
def fillStep (cm : ℝ → V3) (p : FillParams) (s : VState) (ring : ℕ) : VState :=
  let s1 := pushMany s (ringVertexBlock cm p ring)
  { s1 with
    indices := s1.indices ++ ringIndexBlock p.numsegs s1.idx
    idx := s1.idx + 2 * p.numsegs }

/-- `CyclicColourVisual::fillFrameWithColour`, iterating the ring loop from
`numrings` down to `1`. -/
def fillFrameWithColour (cm : ℝ → V3) (p : FillParams) (s : VState) : VState :=
  (ringList p.numrings).foldl (fillStep cm p) s

/-! ## Tick labels (`drawTickLabels`, source lines 70-106) -/

/-- The external text-measurement result `mplot::TextGeometry`: width, height
and the half extents of a rendered string. -/
structure TextGeometry where
  width : ℝ
  height : ℝ
  half_width : ℝ
  half_height : ℝ

/-- The two sequential wrap conditionals applied to each auto-generated
angle (source lines 84-85): add `2 pi` if negative, then subtract `2 pi` if
greater than `2 pi`. -/
def rescaleAngle (x : ℝ) : ℝ :=
  let x1 := if x < 0 then x + 2 * π else x
  if x1 > 2 * π then x1 - 2 * π else x1

/-- The auto-generated label angles for `N` labels (source lines 79-86):
`pi/2 + i * (2 pi / N)` for `i = 0 .. N-1`, each passed through the wrap
conditionals. -/
def autoAngles (N : ℕ) : List ℝ :=
  (List.range N).map
    (fun i : ℕ => rescaleAngle (π / 2 + (i : ℝ) * (2 * π / (N : ℝ))))

/-- The configuration fields of `CyclicColourVisual` read by
`drawTickLabels`. -/
structure TickConfig where
  outer_radius : ℝ
  framelinewidth : ℝ
  ticklabelgap : ℝ
  z : ℝ

/-- `float geom_gap = std::abs(std::cos(a) * half_width) +
std::abs(std::sin(a) * half_height);` (source line 96). -/
def geom_gap (angle : ℝ) (g : TextGeometry) : ℝ :=
  |Real.cos angle * g.half_width| + |Real.sin angle * g.half_height|

/-- `float lbl_r = this->outer_radius + this->framelinewidth +
this->ticklabelgap + geom_gap;` (source line 97). -/
def lbl_r (c : TickConfig) (angle : ℝ) (g : TextGeometry) : ℝ :=
  c.outer_radius + c.framelinewidth + c.ticklabelgap + geom_gap angle g

/-- The anchor position `lblpos` of a label (source lines 98-102). -/
def lblpos (c : TickConfig) (angle : ℝ) (g : TextGeometry) : V3 :=
  (lbl_r c angle g * Real.cos angle - g.half_width,
   lbl_r c angle g * Real.sin angle - g.half_height, c.z)

/-- The outcome of `drawTickLabels`: the angle list in effect, the placed
text objects (label paired with its anchor position), and the running maxima
`ticklabelwidth` / `ticklabelheight`. -/
structure TickResult (α : Type) where
  label_angles : List ℝ
  texts : List (α × V3)
  ticklabelwidth : ℝ
  ticklabelheight : ℝ

/-- `CyclicColourVisual::drawTickLabels`, parametrized over the label type
`α` and the external text measurer: resets the width/height maxima, fills
`label_angles` with `autoAngles` when the client supplied none, then for each
angle measures the label, updates the maxima, and places the text object. -/
def drawTickLabels {α : Type} [Inhabited α] (measure : α → TextGeometry)
    (c : TickConfig) (labels : List α) (label_angles0 : List ℝ) :
    TickResult α :=
  let angles := if label_angles0.isEmpty then autoAngles labels.length
                else label_angles0
  (List.range angles.length).foldl
    (fun r i =>
      let s := labels.getD i default
      let g := measure s
      let a := angles.getD i 0
      { r with
        ticklabelheight := if g.height > r.ticklabelheight then g.height
                           else r.ticklabelheight
        ticklabelwidth := if g.width > r.ticklabelwidth then g.width
                          else r.ticklabelwidth
        texts := r.texts ++ [(s, lblpos c a g)] })
    ⟨angles, [], 0, 0⟩

/-- The auto-set tick-label gap of `initializeVertices` (source line 52):
half the measured width of the reference glyph. -/
def autoTicklabelgap (em_width : ℝ) : ℝ := em_width / 2

/-- Modelled from the spec: `mplot::ColourMap::convert` for a cyclic family
(the header `mplot/ColourMap.h` is not in the source sample).  The input is
implicitly modulo 1, so the family's colour curve is applied to the
fractional part of the input. -/
def cyclicConvert (curve : ℝ → V3) (x : ℝ) : V3 := curve (Int.fract x)

/-- The index-buffer contract of the colour fill, starting from state `s`:
the pass appends one `ringIndexBlock` per ring against a base offset that
starts at `s.idx` and advances by `2 * numsegs` per ring; each block lists,
per segment `j`, the two triangles described by the successor segment
`(j + 1) % numsegs`; every index of the ring built `k`-th is below the
vertex count reached once that ring's vertices are in; the three vertex
sequences keep equal lengths; and the segment-successor map returns to its
start after exactly `numsegs` steps and not before. -/
def FillIndexContract (cm : ℝ → V3) (p : FillParams) (s : VState) : Prop :=
  (fillFrameWithColour cm p s).indices =
      s.indices ++ (List.range p.numrings).flatMap
        (fun k => ringIndexBlock p.numsegs (s.idx + 2 * p.numsegs * k))
  ∧ (fillFrameWithColour cm p s).idx = s.idx + 2 * p.numsegs * p.numrings
  ∧ (∀ b, ringIndexBlock p.numsegs b =
      (List.range p.numsegs).flatMap (fun j =>
        [b + 2 * j, b + 2 * ((j + 1) % p.numsegs),
         b + (2 * ((j + 1) % p.numsegs) + 1),
         b + 2 * j, b + (2 * ((j + 1) % p.numsegs) + 1), b + (2 * j + 1)]))
  ∧ (∀ k, k < p.numrings →
      ∀ i ∈ ringIndexBlock p.numsegs (s.idx + 2 * p.numsegs * k),
        i < s.vertexPositions.length + 2 * p.numsegs * (k + 1))
  ∧ (fillFrameWithColour cm p s).vertexNormals.length =
      (fillFrameWithColour cm p s).vertexPositions.length
  ∧ (fillFrameWithColour cm p s).vertexColors.length =
      (fillFrameWithColour cm p s).vertexPositions.length
  ∧ (∀ j, j < p.numsegs →
      (segSucc p.numsegs)^[p.numsegs] j = j
      ∧ ∀ m, 0 < m → m < p.numsegs → (segSucc p.numsegs)^[m] j ≠ j)

/-! ## Helper lemmas -/

theorem length_flatMap_const {α β : Type} (l : List α) (f : α → List β) (k : ℕ)
    (h : ∀ a, (f a).length = k) : (l.flatMap f).length = k * l.length := by
  induction l with
  | nil => simp
  | cons a l ih =>
    simp only [List.flatMap_cons, List.length_append, h, ih, List.length_cons]
    ring

theorem ringIndexBlock_length (n idx : ℕ) :
    (ringIndexBlock n idx).length = 6 * n := by
  have := length_flatMap_const (List.range n)
    (fun j =>
      let jn := segSucc n j
      [idx + 2 * j, idx + 2 * jn, idx + (2 * jn + 1),
       idx + 2 * j, idx + (2 * jn + 1), idx + (2 * j + 1)]) 6 (fun j => rfl)
  simpa [ringIndexBlock] using this

theorem ringVertexBlock_length (cm : ℝ → V3) (p : FillParams) (ring : ℕ) :
    (ringVertexBlock cm p ring).length = 2 * p.numsegs := by
  have := length_flatMap_const (List.range p.numsegs)
    (fun j =>
      [(posIn p ring j, uz, col_in cm p ring j),
       (posOut p ring j, uz, col_out cm p ring j)]) 2 (fun j => rfl)
  simpa [ringVertexBlock] using this

theorem pushMany_spec (vs : List (V3 × V3 × V3)) (s : VState) :
    (pushMany s vs).vertexPositions = s.vertexPositions ++ vs.map (fun v => v.1)
    ∧ (pushMany s vs).vertexNormals = s.vertexNormals ++ vs.map (fun v => v.2.1)
    ∧ (pushMany s vs).vertexColors = s.vertexColors ++ vs.map (fun v => v.2.2)
    ∧ (pushMany s vs).indices = s.indices
    ∧ (pushMany s vs).idx = s.idx := by
  induction vs generalizing s with
  | nil => simp [pushMany]
  | cons v vs ih =>
    have h := ih (pushVertex s v.1 v.2.1 v.2.2)
    simp only [pushMany, List.foldl_cons] at h ⊢
    simpa [pushVertex, List.append_assoc] using h

theorem fillStep_spec (cm : ℝ → V3) (p : FillParams) (s : VState) (ring : ℕ) :
    (fillStep cm p s ring).vertexPositions =
        s.vertexPositions ++ (ringVertexBlock cm p ring).map (fun v => v.1)
    ∧ (fillStep cm p s ring).vertexNormals =
        s.vertexNormals ++ (ringVertexBlock cm p ring).map (fun v => v.2.1)
    ∧ (fillStep cm p s ring).vertexColors =
        s.vertexColors ++ (ringVertexBlock cm p ring).map (fun v => v.2.2)
    ∧ (fillStep cm p s ring).indices =
        s.indices ++ ringIndexBlock p.numsegs s.idx
    ∧ (fillStep cm p s ring).idx = s.idx + 2 * p.numsegs := by
  obtain ⟨h1, h2, h3, h4, h5⟩ := pushMany_spec (ringVertexBlock cm p ring) s
  exact ⟨h1, h2, h3, by simp [fillStep, h4, h5], by simp [fillStep, h5]⟩

theorem foldl_fillStep_lengths (cm : ℝ → V3) (p : FillParams) (rs : List ℕ)
    (s : VState) :
    ((rs.foldl (fillStep cm p) s).vertexPositions.length =
        s.vertexPositions.length + 2 * p.numsegs * rs.length)
    ∧ ((rs.foldl (fillStep cm p) s).vertexNormals.length =
        s.vertexNormals.length + 2 * p.numsegs * rs.length)
    ∧ ((rs.foldl (fillStep cm p) s).vertexColors.length =
        s.vertexColors.length + 2 * p.numsegs * rs.length)
    ∧ ((rs.foldl (fillStep cm p) s).indices.length =
        s.indices.length + 6 * p.numsegs * rs.length)
    ∧ ((rs.foldl (fillStep cm p) s).idx = s.idx + 2 * p.numsegs * rs.length) := by
  induction rs generalizing s with
  | nil => simp
  | cons r rs ih =>
    obtain ⟨h1, h2, h3, h4, h5⟩ := fillStep_spec cm p s r
    obtain ⟨g1, g2, g3, g4, g5⟩ := ih (fillStep cm p s r)
    refine ⟨?_, ?_, ?_, ?_, ?_⟩ <;>
      simp only [List.foldl_cons, g1, g2, g3, g4, g5, h1, h2, h3, h4, h5,
        List.length_append, List.length_map, ringVertexBlock_length,
        ringIndexBlock_length, List.length_cons] <;> ring

theorem ringList_length (numrings : ℕ) : (ringList numrings).length = numrings := by
  simp [ringList]

/-- C1: the colour fill pass appends exactly `2 * numrings * numsegs`
vertices — positions, normals and colours each growing by that amount — and
exactly `2 * numrings * numsegs` triangles, i.e. `6 * numrings * numsegs`
index entries, to the buffers. -/
theorem fill_vertex_and_triangle_counts (cm : ℝ → V3) (p : FillParams)
    (s : VState) :
    (fillFrameWithColour cm p s).vertexPositions.length =
        s.vertexPositions.length + 2 * p.numrings * p.numsegs
    ∧ (fillFrameWithColour cm p s).vertexNormals.length =
        s.vertexNormals.length + 2 * p.numrings * p.numsegs
    ∧ (fillFrameWithColour cm p s).vertexColors.length =
        s.vertexColors.length + 2 * p.numrings * p.numsegs
    ∧ (fillFrameWithColour cm p s).indices.length =
        s.indices.length + 6 * p.numrings * p.numsegs
    ∧ (fillFrameWithColour cm p s).indices.length - s.indices.length =
        3 * (2 * p.numrings * p.numsegs) := by
  obtain ⟨h1, h2, h3, h4, h5⟩ :=
    foldl_fillStep_lengths cm p (ringList p.numrings) s
  rw [ringList_length] at h1 h2 h3 h4
  refine ⟨?_, ?_, ?_, ?_, ?_⟩ <;>
    (simp only [fillFrameWithColour, h1, h2, h3, h4]; ring_nf; try omega)

theorem segSucc_eq (n j : ℕ) (hn : 0 < n) : segSucc n j = (j + 1) % n := by
  have h1 : (n + (j + 1) % n) % n = ((j + 1) % n) % n := Nat.add_mod_left n _
  have h2 : ((j + 1) % n) % n = (j + 1) % n :=
    Nat.mod_eq_of_lt (Nat.mod_lt _ hn)
  simp [segSucc, h1, h2]

theorem segSucc_lt (n j : ℕ) (hn : 0 < n) : segSucc n j < n := by
  rw [segSucc_eq n j hn]; exact Nat.mod_lt _ hn

theorem segSucc_iterate (n : ℕ) (hn : 0 < n) (m j : ℕ) (hj : j < n) :
    (segSucc n)^[m] j = (j + m) % n := by
  induction m generalizing j with
  | zero => simp [Nat.mod_eq_of_lt hj]
  | succ m ih =>
    rw [Function.iterate_succ_apply, segSucc_eq n j hn,
      ih ((j + 1) % n) (Nat.mod_lt _ hn), Nat.mod_add_mod]
    have h : j + 1 + m = j + (m + 1) := by omega
    rw [h]

theorem segSucc_closure (n : ℕ) (hn : 0 < n) (j : ℕ) (hj : j < n) :
    (segSucc n)^[n] j = j ∧
      ∀ m, 0 < m → m < n → (segSucc n)^[m] j ≠ j := by
  constructor
  · rw [segSucc_iterate n hn n j hj, Nat.add_mod_right, Nat.mod_eq_of_lt hj]
  · intro m hm0 hmn
    rw [segSucc_iterate n hn m j hj]
    rcases lt_or_ge (j + m) n with h | h
    · rw [Nat.mod_eq_of_lt h]; omega
    · have hlt : j + m - n < n := by omega
      rw [Nat.mod_eq_sub_mod h, Nat.mod_eq_of_lt hlt]
      omega

theorem ringIndexBlock_mod_form (n b : ℕ) (hn : 0 < n) :
    ringIndexBlock n b =
      (List.range n).flatMap (fun j =>
        [b + 2 * j, b + 2 * ((j + 1) % n), b + (2 * ((j + 1) % n) + 1),
         b + 2 * j, b + (2 * ((j + 1) % n) + 1), b + (2 * j + 1)]) := by
  unfold ringIndexBlock
  congr 1
  funext j
  simp [segSucc_eq n j hn]

theorem mem_ringIndexBlock_lt (n b : ℕ) (hn : 0 < n) :
    ∀ i ∈ ringIndexBlock n b, i < b + 2 * n := by
  intro i hi
  simp only [ringIndexBlock, List.mem_flatMap, List.mem_range] at hi
  obtain ⟨j, hj, hmem⟩ := hi
  have hs := segSucc_lt n j hn
  simp only [List.mem_cons, List.not_mem_nil, or_false] at hmem
  rcases hmem with h | h | h | h | h | h <;> omega

theorem foldl_fillStep_indices (cm : ℝ → V3) (p : FillParams) (rs : List ℕ)
    (s : VState) :
    (rs.foldl (fillStep cm p) s).indices =
      s.indices ++ (List.range rs.length).flatMap
        (fun k => ringIndexBlock p.numsegs (s.idx + 2 * p.numsegs * k)) := by
  induction rs generalizing s with
  | nil => simp
  | cons r rs ih =>
    obtain ⟨_, _, _, h4, h5⟩ := fillStep_spec cm p s r
    have hfun : (fun a : ℕ => ringIndexBlock p.numsegs
          (s.idx + 2 * p.numsegs * a.succ)) =
        fun k => ringIndexBlock p.numsegs
          (s.idx + 2 * p.numsegs + 2 * p.numsegs * k) := by
      funext k
      congr 1
      rw [Nat.succ_eq_add_one]
      ring
    rw [List.foldl_cons, ih (fillStep cm p s r), h4, h5, List.length_cons,
      List.range_succ_eq_map, List.flatMap_cons, List.flatMap_map, hfun,
      mul_zero, add_zero, List.append_assoc]

/-- C2: the fill pass emits, per ring and segment `j`, the two triangles
`(b+2j, b+2jn, b+2jn+1)` and `(b+2j, b+2jn+1, b+2j+1)` with
`jn = (j+1) % numsegs`, against a base offset `b` that starts at the
running vertex count and advances by `2 * numsegs` per ring; every emitted
index refers to a vertex already appended, the three vertex sequences keep
equal lengths, and the segment-successor loop closes after exactly
`numsegs` steps. -/
theorem fill_index_contract (cm : ℝ → V3) (p : FillParams) (s : VState)
    (hseg : 3 ≤ p.numsegs)
    (hidx : s.idx = s.vertexPositions.length)
    (hnrm : s.vertexNormals.length = s.vertexPositions.length)
    (hcol : s.vertexColors.length = s.vertexPositions.length) :
    FillIndexContract cm p s := by
  have hn : 0 < p.numsegs := by omega
  obtain ⟨l1, l2, l3, l4, l5⟩ :=
    foldl_fillStep_lengths cm p (ringList p.numrings) s
  rw [ringList_length] at l1 l2 l3 l5
  have hind := foldl_fillStep_indices cm p (ringList p.numrings) s
  rw [ringList_length] at hind
  refine ⟨hind, ?_, ?_, ?_, ?_, ?_, ?_⟩
  · rw [fillFrameWithColour, l5]
  · intro b
    exact ringIndexBlock_mod_form p.numsegs b hn
  · intro k hk i hi
    have := mem_ringIndexBlock_lt p.numsegs (s.idx + 2 * p.numsegs * k) hn i hi
    have harith : s.idx + 2 * p.numsegs * k + 2 * p.numsegs =
        s.vertexPositions.length + 2 * p.numsegs * (k + 1) := by
      rw [hidx]; ring
    omega
  · rw [fillFrameWithColour, l1, l2, hnrm]
  · rw [fillFrameWithColour, l1, l3, hcol]
  · intro j hj
    exact segSucc_closure p.numsegs hn j hj

/-- Witness for C2 at `numsegs = 3`, `numrings = 2` and empty buffers. -/
theorem fill_index_contract_witness :
    3 ≤ (3 : ℕ) ∧
      FillIndexContract (fun x => (x, x, x))
        (⟨1, 3 / 10, 0, true, 3, 2⟩ : FillParams)
        (⟨[], [], [], [], 0⟩ : VState) :=
  ⟨by decide,
    fill_index_contract (fun x => (x, x, x))
      (⟨1, 3 / 10, 0, true, 3, 2⟩ : FillParams)
      (⟨[], [], [], [], 0⟩ : VState) (by decide) rfl rfl rfl⟩

/-- C7: a cyclic colour converter satisfies `convert (x + 1) = convert x` for
every `x`, so the fill pass may pass `fraction + perturbation` directly to
`convert` without wraparound logic. -/
theorem cyclic_convert_mod_one (curve : ℝ → V3) (x : ℝ) (p : FillParams)
    (ring j : ℕ) :
    cyclicConvert curve (x + 1) = cyclicConvert curve x
    ∧ cyclicConvert curve (convertArgOut p ring j + 1) =
        col_out (cyclicConvert curve) p ring j := by
  constructor
  · simp [cyclicConvert, Int.fract_add_one]
  · simp [cyclicConvert, Int.fract_add_one, col_out]

/-- C8: whenever the configured range makes the normalized fraction of a
value exactly one half, the Jet-style conversion of that value is the
documented midpoint triple `(0.541, 0.76, 0.018)`; every configuration
exercised by `testColourMap.cpp` normalizes its tested value to exactly one
half, so each yields that triple. -/
theorem jet_midpoint_reproduces (range_min range_max value : ℚ)
    (h : (value - range_min) / (range_max - range_min) = 1 / 2) :
    colourMapConvert range_min range_max value = midJet
    ∧ (∀ c ∈ jetTestConfigs, (c.2.2 - c.1) / (c.2.1 - c.1) = 1 / 2)
    ∧ (∀ c ∈ jetTestConfigs, colourMapConvert c.1 c.2.1 c.2.2 = midJet) := by
  refine ⟨?_, ?_, ?_⟩
  · simp [colourMapConvert, h, jetCurve]
  · intro c hc
    fin_cases hc <;> norm_num
  · intro c hc
    fin_cases hc <;> norm_num [colourMapConvert, jetCurve, midJet]

/-- Witness for C8 at the unsigned-char configuration of the test:
`range_min = 0`, `range_max = 254`, `value = 127`. -/
theorem jet_midpoint_reproduces_witness :
    ((127 : ℚ) - 0) / ((254 : ℚ) - 0) = 1 / 2 ∧
      (colourMapConvert 0 254 127 = midJet
        ∧ (∀ c ∈ jetTestConfigs, (c.2.2 - c.1) / (c.2.1 - c.1) = 1 / 2)
        ∧ (∀ c ∈ jetTestConfigs, colourMapConvert c.1 c.2.1 c.2.2 = midJet)) :=
  ⟨by norm_num, jet_midpoint_reproduces 0 254 127 (by norm_num)⟩

/-- C10: with no labels and no explicit angles, the tick-label pass yields
no angles, appends no text objects and leaves the width/height maxima at
zero; the auto-angle list for zero labels is empty, so the even-spacing
formula (containing the division by the label count) is evaluated for no
index. -/
theorem drawTickLabels_empty {α : Type} [Inhabited α]
    (measure : α → TextGeometry) (c : TickConfig) :
    drawTickLabels measure c ([] : List α) [] =
        (⟨[], [], 0, 0⟩ : TickResult α)
    ∧ autoAngles 0 = [] := by
  constructor
  · simp [drawTickLabels, autoAngles]
  · simp [autoAngles]

/-- C9 counterexample: with `draw_frame = false` and `draw_ticks = false`
the client needs no labels, yet the source still performs the glyph
measurement, so `initializeVertices` does not match the step sequence the
claim describes. -/
theorem initSteps_measure_not_skipped :
    initSteps false false ≠ initStepsClaimed false false false
    ∧ InitStep.measureGlyph ∈ initSteps false false := by
  decide

/-- C9 (amended): `initializeVertices` always measures the reference glyph
first — the gap becoming half the measured width — even when the client
needs no labels; then it builds the frame iff `draw_frame`, then places
tick labels iff `draw_ticks`, and finally always fills the disc, in that
order. -/
theorem initSteps_order (w : ℝ) (f t : Bool) :
    (initSteps f t).head? = some InitStep.measureGlyph
    ∧ (initSteps f t).getLast? = some InitStep.fillFrameWithColour
    ∧ (InitStep.drawFrame ∈ initSteps f t ↔ f = true)
    ∧ (InitStep.drawTickLabels ∈ initSteps f t ↔ t = true)
    ∧ (initSteps f t).Sublist
        [InitStep.measureGlyph, InitStep.drawFrame, InitStep.drawTickLabels,
         InitStep.fillFrameWithColour]
    ∧ autoTicklabelgap w = w / 2 := by
  cases f <;> cases t <;>
    exact ⟨by decide, by decide, by decide, by decide, by decide, rfl⟩

/-- C4: the clearance, placement radius and anchor position of a tick label
are exactly the source's formulas, and for a label of positive measured
half-extents the placement radius strictly exceeds
`outer_radius + framelinewidth + ticklabelgap` at every angle. -/
theorem label_placement (c : TickConfig) (angle : ℝ) (g : TextGeometry)
    (hw : 0 < g.half_width) (hh : 0 < g.half_height) :
    geom_gap angle g =
        |Real.cos angle * g.half_width| + |Real.sin angle * g.half_height|
    ∧ lbl_r c angle g =
        c.outer_radius + c.framelinewidth + c.ticklabelgap + geom_gap angle g
    ∧ lblpos c angle g =
        (lbl_r c angle g * Real.cos angle - g.half_width,
         lbl_r c angle g * Real.sin angle - g.half_height, c.z)
    ∧ c.outer_radius + c.framelinewidth + c.ticklabelgap < lbl_r c angle g := by
  have hcs : (1 : ℝ) ≤ |Real.cos angle| + |Real.sin angle| := by
    nlinarith [Real.sin_sq_add_cos_sq angle, Real.abs_cos_le_one angle,
      Real.abs_sin_le_one angle, sq_abs (Real.cos angle),
      sq_abs (Real.sin angle), abs_nonneg (Real.cos angle),
      abs_nonneg (Real.sin angle)]
  have hgap : 0 < geom_gap angle g := by
    rw [geom_gap, abs_mul, abs_mul, abs_of_pos hw, abs_of_pos hh]
    rcases eq_or_lt_of_le (abs_nonneg (Real.cos angle)) with hc | hc
    · have hs1 : (1 : ℝ) ≤ |Real.sin angle| := by rw [← hc] at hcs; linarith
      nlinarith
    · nlinarith [mul_pos hc hw,
        mul_nonneg (abs_nonneg (Real.sin angle)) hh.le]
  refine ⟨rfl, rfl, rfl, ?_⟩
  rw [lbl_r]
  linarith

/-- Witness for C4 at angle `0` with half extents `1` and `1/2`. -/
theorem label_placement_witness :
    (⟨1, 1 / 100, 1 / 20, 0⟩ : TickConfig).outer_radius
      + (⟨1, 1 / 100, 1 / 20, 0⟩ : TickConfig).framelinewidth
      + (⟨1, 1 / 100, 1 / 20, 0⟩ : TickConfig).ticklabelgap
      < lbl_r (⟨1, 1 / 100, 1 / 20, 0⟩ : TickConfig) 0
          (⟨2, 1, 1, 1 / 2⟩ : TextGeometry) :=
  (label_placement (⟨1, 1 / 100, 1 / 20, 0⟩ : TickConfig) 0
    (⟨2, 1, 1, 1 / 2⟩ : TextGeometry)
    (show (0 : ℝ) < 1 by norm_num)
    (show (0 : ℝ) < 1 / 2 by norm_num)).2.2.2

theorem rescaleAngle_id (x : ℝ) (h0 : 0 ≤ x) (h1 : x ≤ 2 * π) :
    rescaleAngle x = x := by
  simp only [rescaleAngle, if_neg (not_lt.mpr h0), if_neg (not_lt.mpr h1)]

/-- C3: evaluating the auto-angle generation at the default label count 4,
the produced angles are `pi/2, pi, 3 pi/2` and `2 pi` — the last one is left
at `2 pi` by the strict wrap guard, so it is neither `0` nor inside
`[0, 2 pi)` as the claim (and the source's own comment) state. -/
theorem autoAngles_default_four :
    autoAngles 4 = [π / 2, π, 3 * π / 2, 2 * π]
    ∧ 2 * π ∉ Set.Ico (0 : ℝ) (2 * π)
    ∧ (2 * π : ℝ) ≠ 0 := by
  have hπ := Real.pi_pos
  refine ⟨?_, by simp, ne_of_gt (by positivity)⟩
  have h4 : List.range 4 = [0, 1, 2, 3] := rfl
  have e0 : rescaleAngle (π / 2 + ((0 : ℕ) : ℝ) * (2 * π / ((4 : ℕ) : ℝ))) =
      π / 2 := by
    rw [show π / 2 + ((0 : ℕ) : ℝ) * (2 * π / ((4 : ℕ) : ℝ)) = π / 2 by
      push_cast; ring]
    exact rescaleAngle_id _ (by positivity) (by nlinarith)
  have e1 : rescaleAngle (π / 2 + ((1 : ℕ) : ℝ) * (2 * π / ((4 : ℕ) : ℝ))) =
      π := by
    rw [show π / 2 + ((1 : ℕ) : ℝ) * (2 * π / ((4 : ℕ) : ℝ)) = π by
      push_cast; ring]
    exact rescaleAngle_id _ (by positivity) (by nlinarith)
  have e2 : rescaleAngle (π / 2 + ((2 : ℕ) : ℝ) * (2 * π / ((4 : ℕ) : ℝ))) =
      3 * π / 2 := by
    rw [show π / 2 + ((2 : ℕ) : ℝ) * (2 * π / ((4 : ℕ) : ℝ)) = 3 * π / 2 by
      push_cast; ring]
    exact rescaleAngle_id _ (by positivity) (by nlinarith)
  have e3 : rescaleAngle (π / 2 + ((3 : ℕ) : ℝ) * (2 * π / ((4 : ℕ) : ℝ))) =
      2 * π := by
    rw [show π / 2 + ((3 : ℕ) : ℝ) * (2 * π / ((4 : ℕ) : ℝ)) = 2 * π by
      push_cast; ring]
    exact rescaleAngle_id _ (by positivity) (le_refl _)
  rw [autoAngles, h4, List.map_cons, List.map_cons, List.map_cons,
    List.map_cons, List.map_nil, e0, e1, e2, e3]

theorem norm_r_out_eq (p : FillParams) (ring : ℕ)
    (hr : p.inner_radius ≠ p.outer_radius) :
    norm_r_out p ring = (ring : ℝ) / (p.numrings : ℝ) := by
  have hd : r_d p ≠ 0 := sub_ne_zero.mpr (Ne.symm hr)
  unfold norm_r_out r_out r_dr
  rcases eq_or_ne ((p.numrings : ℝ)) 0 with h0 | h0
  · simp [h0]
  · field_simp
    ring

theorem norm_r_in_eq (p : FillParams) (ring : ℕ)
    (hr : p.inner_radius ≠ p.outer_radius) :
    norm_r_in p ring = ((ring - 1 : ℕ) : ℝ) / (p.numrings : ℝ) := by
  have hd : r_d p ≠ 0 := sub_ne_zero.mpr (Ne.symm hr)
  unfold norm_r_in r_in r_dr
  rcases eq_or_ne ((p.numrings : ℝ)) 0 with h0 | h0
  · simp [h0]
  · field_simp
    ring

/-- C5: the base colour fraction passed to the converter is
`j / numsegs` for both boundaries of segment `j`; with the perceptual
overlay enabled each boundary adds its own sinusoid of amplitude
`0.1 * (normalized radial position)^2` and frequency `20 pi` in the colour
angle, and with the overlay disabled the inner and outer vertices of a
segment get equal colours. -/
theorem colour_fraction_and_sine (cm : ℝ → V3) (p : FillParams) (ring j : ℕ)
    (hr : p.inner_radius ≠ p.outer_radius) :
    colour_angle p.numsegs j / (2 * π) = (j : ℝ) / (p.numsegs : ℝ)
    ∧ convertArgOut p ring j =
        (j : ℝ) / (p.numsegs : ℝ) + decaying_sine_out p ring j
    ∧ convertArgIn p ring j =
        (j : ℝ) / (p.numsegs : ℝ) + decaying_sine_in p ring j
    ∧ (p.show_perception_sine = true →
        decaying_sine_out p ring j =
            0.1 * ((ring : ℝ) / (p.numrings : ℝ)) ^ 2 *
              Real.sin (20 * π * colour_angle p.numsegs j)
        ∧ decaying_sine_in p ring j =
            0.1 * (((ring - 1 : ℕ) : ℝ) / (p.numrings : ℝ)) ^ 2 *
              Real.sin (20 * π * colour_angle p.numsegs j))
    ∧ (p.show_perception_sine = false →
        col_out cm p ring j = col_in cm p ring j) := by
  have h2π : (2 * π : ℝ) ≠ 0 := ne_of_gt Real.two_pi_pos
  have hfrac : colour_angle p.numsegs j / (2 * π) =
      (j : ℝ) / (p.numsegs : ℝ) := by
    rw [colour_angle, mul_div_cancel_right₀ _ h2π]
  refine ⟨hfrac, ?_, ?_, ?_, ?_⟩
  · rw [convertArgOut, hfrac]
  · rw [convertArgIn, hfrac]
  · intro hs
    constructor
    · rw [decaying_sine_out, if_pos hs, norm_r_out_eq p ring hr]
      ring
    · rw [decaying_sine_in, if_pos hs, norm_r_in_eq p ring hr]
      ring
  · intro hs
    simp [col_out, col_in, convertArgOut, convertArgIn, decaying_sine_out,
      decaying_sine_in, hs]

/-- Witness for C5 at the default geometry (`numsegs = 128`,
`numrings = 64`, radii `0.3` and `1`), ring `64`, segment `0`. -/
theorem colour_fraction_and_sine_witness :
    (⟨1, 3 / 10, 0, true, 128, 64⟩ : FillParams).inner_radius ≠
        (⟨1, 3 / 10, 0, true, 128, 64⟩ : FillParams).outer_radius
    ∧ colour_angle (⟨1, 3 / 10, 0, true, 128, 64⟩ : FillParams).numsegs 0 /
          (2 * π) =
        ((0 : ℕ) : ℝ) /
          ((⟨1, 3 / 10, 0, true, 128, 64⟩ : FillParams).numsegs : ℝ) :=
  ⟨show (3 / 10 : ℝ) ≠ 1 by norm_num,
    (colour_fraction_and_sine (fun x => (x, x, x))
      (⟨1, 3 / 10, 0, true, 128, 64⟩ : FillParams) 64 0
      (show (3 / 10 : ℝ) ≠ 1 by norm_num)).1⟩

/-- C6: the fill pass visits rings from outermost (`numrings`) to innermost
(`1`), with linearly spaced boundaries: the ring of index `k` has outer
boundary `inner_radius + ring_width * k` and inner boundary
`inner_radius + ring_width * (k - 1)` where
`ring_width = (outer_radius - inner_radius) / numrings`; the first visited
ring touches `outer_radius` and the last touches `inner_radius`. -/
theorem ring_radii (p : FillParams) (hnr : 0 < p.numrings) :
    (∀ k : ℕ, r_out p k = p.inner_radius +
        (p.outer_radius - p.inner_radius) / (p.numrings : ℝ) * (k : ℝ))
    ∧ (∀ k : ℕ, 1 ≤ k → r_in p k = p.inner_radius +
        (p.outer_radius - p.inner_radius) / (p.numrings : ℝ) * ((k : ℝ) - 1))
    ∧ r_out p p.numrings = p.outer_radius
    ∧ r_in p 1 = p.inner_radius
    ∧ (∀ k, k < p.numrings →
        (ringList p.numrings).getD k 0 = p.numrings - k) := by
  have hnr0 : ((p.numrings : ℝ)) ≠ 0 :=
    Nat.cast_ne_zero.mpr (Nat.pos_iff_ne_zero.mp hnr)
  refine ⟨fun k => rfl, ?_, ?_, ?_, ?_⟩
  · intro k hk
    unfold r_in r_dr r_d
    rw [Nat.cast_sub hk, Nat.cast_one]
  · unfold r_out r_dr r_d
    field_simp
  · unfold r_in r_dr r_d
    norm_num
  · intro k hk
    simp [ringList, List.getD_eq_getElem?_getD, List.getElem?_map,
      List.getElem?_range, hk]

/-- Witness for C6 at the default `numrings = 64`: the first visited ring's
outer boundary is the configured outer radius. -/
theorem ring_radii_witness :
    r_out (⟨1, 3 / 10, 0, true, 128, 64⟩ : FillParams)
        (⟨1, 3 / 10, 0, true, 128, 64⟩ : FillParams).numrings =
      (⟨1, 3 / 10, 0, true, 128, 64⟩ : FillParams).outer_radius :=
  (ring_radii (⟨1, 3 / 10, 0, true, 128, 64⟩ : FillParams)
    (by decide)).2.2.1

end

end Mathplot
